import Mathlib

/-!
Verification development for the GroveDB core storage engine.

The Rust sources are shallowly embedded as executable Lean definitions:
bytes are `Nat` values below 256 gathered in `List Nat`, machine integers
are `Nat` with explicit `% 2 ^ w` truncation where overflow matters, and
fallible or panicking operations return `Option` / `Except`.

Covered components:
* `RocksDbStorage::build_prefix` (storage/src/rocksdb_storage/storage.rs) --
  the pre-hash input string fed to BLAKE3;
* the `Link` codec (merk/src/tree/link.rs) -- encode / decode / lengths;
* `commit_multi_context_batch` and
  `commit_multi_context_batch_with_transaction`
  (storage/src/rocksdb_storage/storage.rs) -- cost accounting and
  atomicity against an explicit key-value backend model;
* `GroveDb::insert` and `GroveDb::insert_if_not_exists`
  (grovedb/src/operations/insert.rs).
-/

namespace GroveSpec

/-! ## Byte-string helpers -/

/-- Little-endian byte expansion of a natural number into `k` bytes.
Mirrors Rust `usize::to_ne_bytes` (`k = 8`) on a little-endian 64-bit
platform: values at or above `2 ^ (8 * k)` are truncated, exactly as the
fixed-width machine integer would be. -/
def leBytes : Nat → Nat → List Nat
  | 0, _ => []
  | k + 1, n => n % 256 :: leBytes k (n / 256)

/-- Value denoted by a little-endian byte list. -/
def fromLeBytes : List Nat → Nat
  | [] => 0
  | b :: bs => b + 256 * fromLeBytes bs

/-- Big-endian byte expansion (Rust `u64::to_be_bytes` with `k = 8`). -/
def beBytes (k n : Nat) : List Nat := (leBytes k n).reverse

/-- Value denoted by a big-endian byte list. -/
def fromBeBytes (l : List Nat) : Nat := fromLeBytes l.reverse

@[simp] theorem leBytes_length (k n : Nat) : (leBytes k n).length = k := by
  induction k generalizing n with
  | zero => rfl
  | succ k ih => simp [leBytes, ih]

@[simp] theorem beBytes_length (k n : Nat) : (beBytes k n).length = k := by
  simp [beBytes]

theorem mod_mul_base_decomp (n k : Nat) :
    n % (256 * 256 ^ k) = n % 256 + 256 * (n / 256 % 256 ^ k) := by
  have h1 : n % (256 * 256 ^ k) % 256 = n % 256 :=
    Nat.mod_mod_of_dvd n ⟨256 ^ k, rfl⟩
  have h2 : n % (256 * 256 ^ k) / 256 = n / 256 % 256 ^ k :=
    Nat.mod_mul_right_div_self n 256 (256 ^ k)
  omega

theorem fromLeBytes_leBytes (k n : Nat) : fromLeBytes (leBytes k n) = n % 256 ^ k := by
  induction k generalizing n with
  | zero => simp [leBytes, fromLeBytes, Nat.mod_one]
  | succ k ih =>
    rw [leBytes, fromLeBytes, ih, pow_succ, mul_comm (256 ^ k) 256, mod_mul_base_decomp]

theorem leBytes_inj {k a b : Nat} (ha : a < 256 ^ k) (hb : b < 256 ^ k)
    (h : leBytes k a = leBytes k b) : a = b := by
  have := congrArg fromLeBytes h
  rwa [fromLeBytes_leBytes, fromLeBytes_leBytes, Nat.mod_eq_of_lt ha,
    Nat.mod_eq_of_lt hb] at this

theorem fromBeBytes_beBytes (k n : Nat) : fromBeBytes (beBytes k n) = n % 256 ^ k := by
  rw [beBytes, fromBeBytes, List.reverse_reverse, fromLeBytes_leBytes]

/-! ## List helpers shared by the embeddings -/

/-- Lookup in an association list (used to model maps of the source). -/
def alookup {α β : Type} [DecidableEq α] (k : α) : List (α × β) → Option β
  | [] => none
  | (a, b) :: rest => if a = k then some b else alookup k rest

/-- Insert-or-replace in an association list. -/
def ainsert {α β : Type} [DecidableEq α] (k : α) (v : β) : List (α × β) → List (α × β)
  | [] => [(k, v)]
  | (a, b) :: rest => if a = k then (k, v) :: rest else (a, b) :: ainsert k v rest

theorem take_length_append {α : Type} (a b : List α) : (a ++ b).take a.length = a := by
  induction a with
  | nil => rfl
  | cons x xs ih => simp [ih]

theorem drop_length_append {α : Type} (a b : List α) : (a ++ b).drop a.length = b := by
  induction a with
  | nil => rfl
  | cons x xs ih => simp [ih]

/-- In two decompositions of the same list, the shorter tail is a suffix of
the longer tail. -/
theorem tail_eq_drop_of_append_eq {α : Type} {a1 b1 a2 b2 : List α}
    (h : a1 ++ b1 = a2 ++ b2) (hl : b1.length ≤ b2.length) :
    b1 = b2.drop (b2.length - b1.length) := by
  have hlen : a1.length + b1.length = a2.length + b2.length := by
    have := congrArg List.length h
    simpa using this
  have ha : a1.length = a2.length + (b2.length - b1.length) := by omega
  have hb1 : b1 = (a1 ++ b1).drop a1.length := (drop_length_append a1 b1).symm
  rw [h, ha, ← List.drop_drop, drop_length_append] at hb1
  exact hb1

theorem flatten_length_uniform {α : Type} (c : Nat) :
    ∀ (l : List (List α)), (∀ x ∈ l, x.length = c) → l.flatten.length = c * l.length
  | [], _ => by simp
  | x :: t, h => by
    have hx : x.length = c := h x (List.mem_cons_self x t)
    have ht := flatten_length_uniform c t (fun y hy => h y (List.mem_cons_of_mem x hy))
    simp [hx, ht, Nat.mul_succ, Nat.add_comm]

theorem flatten_drop_uniform {α : Type} (c : Nat) :
    ∀ (k : Nat) (l : List (List α)), (∀ x ∈ l, x.length = c) →
      l.flatten.drop (c * k) = (l.drop k).flatten
  | 0, l, _ => by simp
  | k + 1, [], _ => by simp
  | k + 1, x :: t, h => by
    have hx : x.length = c := h x (List.mem_cons_self x t)
    have ht := flatten_drop_uniform c k t (fun y hy => h y (List.mem_cons_of_mem x hy))
    have : (x ++ t.flatten).drop (c * (k + 1)) = t.flatten.drop (c * k) := by
      rw [Nat.mul_succ, Nat.add_comm, ← List.drop_drop, ← hx, drop_length_append]
    simpa [this] using ht

theorem flatten_inj_uniform {α : Type} {c : Nat} (hc : 0 < c) :
    ∀ {l1 l2 : List (List α)}, (∀ x ∈ l1, x.length = c) → (∀ x ∈ l2, x.length = c) →
      l1.flatten = l2.flatten → l1 = l2
  | [], [], _, _, _ => rfl
  | [], y :: t2, _, h2, hj => by
    have hy : y.length = c := h2 y (List.mem_cons_self y t2)
    have := congrArg List.length hj
    simp [hy] at this
    omega
  | x :: t1, [], h1, _, hj => by
    have hx : x.length = c := h1 x (List.mem_cons_self x t1)
    have := congrArg List.length hj
    simp [hx] at this
    omega
  | x :: t1, y :: t2, h1, h2, hj => by
    have hx : x.length = c := h1 x (List.mem_cons_self x t1)
    have hy : y.length = c := h2 y (List.mem_cons_self y t2)
    have hj' : x ++ t1.flatten = y ++ t2.flatten := by simpa using hj
    have hxy := List.append_inj hj' (by rw [hx, hy])
    have ht := flatten_inj_uniform hc (fun z hz => h1 z (List.mem_cons_of_mem x hz))
      (fun z hz => h2 z (List.mem_cons_of_mem y hz)) hxy.2
    rw [hxy.1, ht]

theorem flatten_eq_of_map_length {α : Type} :
    ∀ {l1 l2 : List (List α)}, l1.map List.length = l2.map List.length →
      l1.flatten = l2.flatten → l1 = l2
  | [], [], _, _ => rfl
  | x :: t1, y :: t2, hm, hj => by
    have hm' : x.length = y.length ∧ t1.map List.length = t2.map List.length := by
      simpa using hm
    have hj' : x ++ t1.flatten = y ++ t2.flatten := by simpa using hj
    have hxy := List.append_inj hj' hm'.1
    have ht := flatten_eq_of_map_length hm'.2 hxy.2
    rw [hxy.1, ht]

/-! ## `RocksDbStorage::build_prefix` (storage/src/rocksdb_storage/storage.rs)

`build_prefix` accumulates, in `res`: the concatenation of all path
segments, then `segments_count.to_ne_bytes()` (8 bytes), then the
8-byte length of every segment in order; it finally returns
`blake3::hash(&res)`.  `buildPrefixInput` is the embedding of the
accumulated `res` -- the pre-hash input string; the final BLAKE3
application is left uninterpreted, so the injectivity claim is stated on
this input string. -/

def buildPrefixInput (path : List (List Nat)) : List Nat :=
  path.flatten ++ leBytes 8 path.length ++ (path.map (fun s => leBytes 8 s.length)).flatten

theorem length_map_leBytes (p : List (List Nat)) :
    ∀ x ∈ p.map (fun s => leBytes 8 s.length), x.length = 8 := by
  intro x hx
  rcases List.mem_map.mp hx with ⟨s, _, rfl⟩
  exact leBytes_length 8 s.length

/-- Segment lengths below `2 ^ 64` are recovered from their 8-byte
little-endian encodings. -/
theorem map_length_of_map_leBytes_eq :
    ∀ {l1 l2 : List (List Nat)}, (∀ s ∈ l1, s.length < 2 ^ 64) →
      (∀ s ∈ l2, s.length < 2 ^ 64) →
      l1.map (fun s => leBytes 8 s.length) = l2.map (fun s => leBytes 8 s.length) →
      l1.map List.length = l2.map List.length
  | [], [], _, _, _ => rfl
  | [], _ :: _, _, _, h => by simp at h
  | _ :: _, [], _, _, h => by simp at h
  | a :: t1, b :: t2, h1, h2, h => by
    have hpow : (256 : Nat) ^ 8 = 2 ^ 64 := by norm_num
    simp only [List.map_cons, List.cons.injEq] at h ⊢
    refine ⟨leBytes_inj (hpow ▸ h1 a (List.mem_cons_self a t1))
      (hpow ▸ h2 b (List.mem_cons_self b t2)) h.1, ?_⟩
    exact map_length_of_map_leBytes_eq (fun s hs => h1 s (List.mem_cons_of_mem a hs))
      (fun s hs => h2 s (List.mem_cons_of_mem b hs)) h.2

/-- Auxiliary step for the injectivity proof: the case `p1.length ≤ p2.length`. -/
theorem buildPrefixInput_inj_of_le {p1 p2 : List (List Nat)}
    (hle : p1.length ≤ p2.length)
    (h1 : ∀ s ∈ p1, s.length < 2 ^ 64) (h2 : ∀ s ∈ p2, s.length < 2 ^ 64)
    (heq : buildPrefixInput p1 = buildPrefixInput p2) : p1 = p2 := by
  set f : List Nat → List Nat := fun s => leBytes 8 s.length with hf
  have hL1 : ((p1.map f).flatten).length = 8 * p1.length := by
    rw [flatten_length_uniform 8 _ (length_map_leBytes p1)]
    simp
  have hL2 : ((p2.map f).flatten).length = 8 * p2.length := by
    rw [flatten_length_uniform 8 _ (length_map_leBytes p2)]
    simp
  -- Align the two length-field areas: the shorter one is a suffix of the longer.
  have heq' : (p1.flatten ++ leBytes 8 p1.length) ++ (p1.map f).flatten
      = (p2.flatten ++ leBytes 8 p2.length) ++ (p2.map f).flatten := by
    simpa [buildPrefixInput, List.append_assoc] using heq
  have hsuffix : (p1.map f).flatten
      = ((p2.map f).flatten).drop (((p2.map f).flatten).length - ((p1.map f).flatten).length) :=
    tail_eq_drop_of_append_eq heq' (by rw [hL1, hL2]; omega)
  have hdropk : ((p2.map f).flatten).length - ((p1.map f).flatten).length
      = 8 * (p2.length - p1.length) := by
    rw [hL1, hL2]; omega
  have hchunks : p1.map f = (p2.map f).drop (p2.length - p1.length) := by
    apply flatten_inj_uniform (c := 8) (by norm_num) (length_map_leBytes p1)
    · intro x hx
      exact length_map_leBytes p2 x (List.mem_of_mem_drop hx)
    · rw [hsuffix, hdropk, flatten_drop_uniform 8 _ _ (length_map_leBytes p2)]
  have hchunks' : p1.map f = (p2.drop (p2.length - p1.length)).map f := by
    rw [hchunks, List.map_drop]
  -- Recover the segment lengths from the 8-byte little-endian fields.
  have hlens : p1.map List.length = (p2.drop (p2.length - p1.length)).map List.length :=
    map_length_of_map_leBytes_eq h1
      (fun s hs => h2 s (List.drop_subset _ _ hs)) hchunks'
  -- Compare total segment byte counts to pin down the segment counts.
  have hsplit : (p2.map List.length).sum
      = ((p2.take (p2.length - p1.length)).map List.length).sum
        + ((p2.drop (p2.length - p1.length)).map List.length).sum := by
    conv_lhs => rw [← List.take_append_drop (p2.length - p1.length) p2]
    rw [List.map_append, List.sum_append]
  have htotal : (p1.map List.length).sum + (8 + 8 * p1.length)
      = (p2.map List.length).sum + (8 + 8 * p2.length) := by
    have := congrArg List.length heq
    simpa [buildPrefixInput, hL1, hL2, List.length_flatten] using this
  have hsums : (p1.map List.length).sum
      = ((p2.drop (p2.length - p1.length)).map List.length).sum := by
    rw [hlens]
  have hcount : p1.length = p2.length := by omega
  -- With equal counts everything decomposes componentwise.
  have hdrop0 : p2.length - p1.length = 0 := by omega
  rw [hdrop0, List.drop_zero] at hlens
  have hjl : p1.flatten.length = p2.flatten.length := by
    simp [List.length_flatten, hlens]
  have h12 := List.append_inj heq' (by simp [hjl, hcount])
  have hflat : p1.flatten = p2.flatten := (List.append_inj h12.1 hjl).1
  exact flatten_eq_of_map_length hlens hflat

/-- Injectivity of the `build_prefix` pre-hash input: two paths (sequences
of byte segments, each segment shorter than `2 ^ 64` as a Rust `usize`
requires) that assemble to the same input string are equal. -/
theorem build_prefix_input_injective (p1 p2 : List (List Nat))
    (h1 : ∀ s ∈ p1, s.length < 2 ^ 64) (h2 : ∀ s ∈ p2, s.length < 2 ^ 64)
    (heq : buildPrefixInput p1 = buildPrefixInput p2) : p1 = p2 := by
  rcases Nat.le_total p1.length p2.length with hle | hle
  · exact buildPrefixInput_inj_of_le hle h1 h2 heq
  · exact (buildPrefixInput_inj_of_le hle h2 h1 heq.symm).symm

/-! ## The `Link` codec (merk/src/tree/link.rs) -/

/-- Modelled from the spec: the Merk tree node held by an in-memory link.
Of the node record described in the spec (key, kv payload, child links,
feature type) the link code under verification consults only `tree.key()`;
the key plus the opaque kv value bytes are kept, the recursive parts are
irrelevant to every claim about `Link` and are omitted. -/
structure Tree where
  key : List Nat
  value : List Nat
deriving DecidableEq

/-- `Link`: a typed reference from a parent node to a child, with the four
states of merk/src/tree/link.rs (field order as in the source). -/
inductive Link where
  | reference (hash : List Nat) (childHeights : Nat × Nat) (key : List Nat)
      (sum : Option Nat)
  | modified (pendingWrites : Nat) (childHeights : Nat × Nat) (tree : Tree)
  | uncommitted (hash : List Nat) (childHeights : Nat × Nat) (tree : Tree)
      (sum : Option Nat)
  | loaded (hash : List Nat) (childHeights : Nat × Nat) (tree : Tree)
      (sum : Option Nat)
deriving DecidableEq

/-- `Link::is_modified`. -/
def Link.is_modified : Link → Bool
  | .modified _ _ _ => true
  | _ => false

/-- `Link::is_uncommitted`. -/
def Link.is_uncommitted : Link → Bool
  | .uncommitted _ _ _ _ => true
  | _ => false

/-- `Link::is_reference`. -/
def Link.is_reference : Link → Bool
  | .reference _ _ _ _ => true
  | _ => false

/-- `Link::key`: the key of the referenced subtree (`tree.key()` when the
child tree is held in memory). -/
def Link.key : Link → List Nat
  | .reference _ _ k _ => k
  | .modified _ _ t => t.key
  | .uncommitted _ _ t _ => t.key
  | .loaded _ _ t _ => t.key

/-- `Link::hash`; the `Modified` arm panics in the source
(`"Cannot get hash from modified link"`), modelled as `none`. -/
def Link.hash : Link → Option (List Nat)
  | .modified _ _ _ => none
  | .reference h _ _ _ => some h
  | .uncommitted h _ _ _ => some h
  | .loaded h _ _ _ => some h

/-- `Link::into_reference`; the `Modified` and `Uncommitted` arms panic in
the source (`"Cannot prune ... tree"`), modelled as `none`.  The `Loaded`
arm builds a `Reference` taking the tree key (`tree.take_key()`). -/
def Link.into_reference : Link → Option Link
  | .reference h ch k s => some (.reference h ch k s)
  | .modified _ _ _ => none
  | .uncommitted _ _ _ _ => none
  | .loaded h ch t s => some (.reference h ch t.key s)

/-- One `out.write_all(bytes)` call on a growing byte buffer. -/
def writeAll (out bytes : List Nat) : List Nat := out ++ bytes

/-- Body of `Link::encode_into` once the per-variant fields have been
extracted: the `debug_assert!(key.len() < 256)` guard (a panic, modelled
as `none`), then the sequence of `write_all` calls. -/
def encodeLinkFields (hash : List Nat) (sum : Option Nat) (key : List Nat)
    (leftHeight rightHeight : Nat) : Option (List Nat) :=
  if key.length < 256 then
    let out := writeAll [] [key.length]
    let out := writeAll out key
    let out := writeAll out hash
    let out := writeAll out [leftHeight, rightHeight]
    let out := writeAll out [if sum.isSome then 1 else 0]
    let out :=
      match sum with
      | some v => writeAll out (beBytes 8 v)
      | none => out
    some out
  else none

/-- `Link::encode_into` (impl `Encode for Link`); the `Modified` arm panics
(`"No encoding for Link::Modified"`), modelled as `none`. -/
def Link.encode_into : Link → Option (List Nat)
  | .reference h (lh, rh) k s => encodeLinkFields h s k lh rh
  | .loaded h (lh, rh) t s => encodeLinkFields h s t.key lh rh
  | .uncommitted h (lh, rh) t s => encodeLinkFields h s t.key lh rh
  | .modified _ _ _ => none

/-- `Link::encoding_length`; the leading `debug_assert!` on the key length
and the `Modified` panic are modelled as `none`. -/
def Link.encoding_length : Link → Option Nat
  | l =>
    if l.key.length < 256 then
      match l with
      | .reference _ _ k s => some (1 + k.length + 32 + 2 + 1 + (if s.isSome then 8 else 0))
      | .modified _ _ _ => none
      | .uncommitted _ _ t s => some (1 + t.key.length + 32 + 2 + 1 + (if s.isSome then 8 else 0))
      | .loaded _ _ t s => some (1 + t.key.length + 32 + 2 + 1 + (if s.isSome then 8 else 0))
    else none

/-- `read_exact` into a single-byte buffer (`read_u8`). -/
def readByte : List Nat → Option (Nat × List Nat)
  | [] => none
  | b :: rest => some (b, rest)

/-- `read_exact` into an `n`-byte buffer: fails when fewer bytes remain. -/
def readBytes (n : Nat) (input : List Nat) : Option (List Nat × List Nat) :=
  if n ≤ input.length then some (input.take n, input.drop n) else none

/-- `Link::decode` / `Link::decode_into` (impl `Decode for Link`): builds a
`Reference` link from the byte stream -- key length byte, key, 32-byte
hash, two child-height bytes, has-sum byte, and an optional big-endian
`u64` sum. -/
def Link.decode (input : List Nat) : Option Link := do
  let (len, r1) ← readByte input
  let (k, r2) ← readBytes len r1
  let (h, r3) ← readBytes 32 r2
  let (lh, r4) ← readByte r3
  let (rh, r5) ← readByte r4
  let (hs, r6) ← readByte r5
  if hs ≠ 0 then
    let (sb, _) ← readBytes 8 r6
    pure (.reference h (lh, rh) k (some (fromBeBytes sb)))
  else
    pure (.reference h (lh, rh) k none)

theorem readBytes_append (a b : List Nat) : readBytes a.length (a ++ b) = some (a, b) := by
  simp [readBytes, take_length_append, drop_length_append]

theorem readBytes_of_length_eq {n : Nat} (a b : List Nat) (ha : a.length = n) :
    readBytes n (a ++ b) = some (a, b) := ha ▸ readBytes_append a b

theorem encodeLinkFields_eq (hash key : List Nat) (sum : Option Nat)
    (lh rh : Nat) (hk : key.length < 256) :
    encodeLinkFields hash sum key lh rh
      = some ((key.length :: key) ++ hash ++ [lh, rh]
          ++ (match sum with
              | none => [0]
              | some v => 1 :: beBytes 8 v)) := by
  cases sum <;> simp [encodeLinkFields, writeAll, hk]

/-- Decoding the raw field encoding recovers the `Reference` form of the
fields (the hash must be the 32 bytes the wire format reserves for it,
and a present sum must fit in a `u64`). -/
theorem decode_encodeLinkFields (hash key : List Nat) (sum : Option Nat)
    (lh rh : Nat) (hk : key.length < 256) (hh : hash.length = 32)
    (hsum : ∀ v, sum = some v → v < 2 ^ 64) :
    (encodeLinkFields hash sum key lh rh).bind Link.decode
      = some (.reference hash (lh, rh) key sum) := by
  rw [encodeLinkFields_eq hash key sum lh rh hk]
  have hpow : (256 : Nat) ^ 8 = 2 ^ 64 := by norm_num
  have hkb : ∀ b, readBytes key.length (key ++ b) = some (key, b) :=
    fun b => readBytes_append key b
  have h32 : ∀ b, readBytes 32 (hash ++ b) = some (hash, b) :=
    fun b => readBytes_of_length_eq hash b hh
  cases sum with
  | none =>
    simp [Link.decode, readByte, hkb, h32]
  | some v =>
    have hv : v < 2 ^ 64 := hsum v rfl
    have hb8 : readBytes 8 (beBytes 8 v) = some (beBytes 8 v, []) := by
      simpa using readBytes_of_length_eq (beBytes 8 v) [] (beBytes_length 8 v)
    simp [Link.decode, readByte, hkb, h32, hb8, fromBeBytes_beBytes, hpow,
      Nat.mod_eq_of_lt hv]
    omega

/-! ## Claim theorems for the prefix and the link codec -/

/-- C2: `RocksDbStorage::build_prefix` hashes the concatenation of all
path segments followed by the segment count and the per-segment lengths;
stated on the pre-hash input string, any two distinct paths (distinct as
sequences of byte segments, each segment shorter than `2 ^ 64` bytes as
its Rust `usize` length requires) produce different input strings, hence
different prefixes up to BLAKE3 collisions. -/
theorem build_prefix_injective (p1 p2 : List (List Nat))
    (h1 : ∀ s ∈ p1, s.length < 2 ^ 64) (h2 : ∀ s ∈ p2, s.length < 2 ^ 64)
    (heq : buildPrefixInput p1 = buildPrefixInput p2) : p1 = p2 :=
  build_prefix_input_injective p1 p2 h1 h2 heq

/-- Witness for C2 at the two paths of the source's `test_build_prefix`
test: `[aa, b]` and `[a, ab]` assemble different pre-hash inputs. -/
theorem build_prefix_injective_witness :
    buildPrefixInput [[97, 97], [98]] ≠ buildPrefixInput [[97], [97, 98]] :=
  fun h =>
    absurd (build_prefix_injective [[97, 97], [98]] [[97], [97, 98]]
      (by decide) (by decide) h) (by decide)

/-- C3 (amended): decoding the bytes produced by `Link::encode_into`
yields the pruned `Reference` link carrying the same key, hash, child
heights and sum; the round trip is the identity exactly on `Reference`
inputs, while `Uncommitted` and `Loaded` inputs come back as the
`Reference` link over their tree's key. -/
theorem link_encode_decode_roundtrip (h k : List Nat) (lh rh : Nat)
    (s : Option Nat) (t : Tree) (hh : h.length = 32) (hk : k.length < 256)
    (htk : t.key = k) (hs : ∀ v, s = some v → v < 2 ^ 64) :
    ((Link.reference h (lh, rh) k s).encode_into.bind Link.decode
        = some (Link.reference h (lh, rh) k s))
    ∧ ((Link.uncommitted h (lh, rh) t s).encode_into.bind Link.decode
        = some (Link.reference h (lh, rh) k s))
    ∧ ((Link.loaded h (lh, rh) t s).encode_into.bind Link.decode
        = some (Link.reference h (lh, rh) k s)) := by
  refine ⟨?_, ?_, ?_⟩ <;> simp only [Link.encode_into, htk] <;>
    exact decode_encodeLinkFields h k s lh rh hk hh hs

/-- Witness for C3 (amended) at the link of the source's `encode_link`
test, with a sum-carrying variant exercised through the tree key. -/
theorem link_encode_decode_roundtrip_witness :
    ((Link.reference (List.replicate 32 55) (123, 124) [1, 2, 3] none).encode_into.bind
        Link.decode
      = some (Link.reference (List.replicate 32 55) (123, 124) [1, 2, 3] none))
    ∧ ((Link.uncommitted (List.replicate 32 55) (123, 124) ⟨[1, 2, 3], [9]⟩ none).encode_into.bind
        Link.decode
      = some (Link.reference (List.replicate 32 55) (123, 124) [1, 2, 3] none))
    ∧ ((Link.loaded (List.replicate 32 55) (123, 124) ⟨[1, 2, 3], [9]⟩ none).encode_into.bind
        Link.decode
      = some (Link.reference (List.replicate 32 55) (123, 124) [1, 2, 3] none)) :=
  link_encode_decode_roundtrip (List.replicate 32 55) [1, 2, 3] 123 124 none
    ⟨[1, 2, 3], [9]⟩ (by decide) (by decide) rfl (fun v hv => nomatch hv)

/-- Counterexample to C3 as stated: an `Uncommitted` link does not decode
back to the same variant -- `Link::decode` always builds a `Reference`. -/
theorem link_encode_decode_counterexample :
    ((Link.uncommitted (List.replicate 32 55) (1, 2) ⟨[7], []⟩ none).encode_into.bind
        Link.decode)
      ≠ some (Link.uncommitted (List.replicate 32 55) (1, 2) ⟨[7], []⟩ none) := by
  decide

theorem encodeLinkFields_length (hash key : List Nat) (sum : Option Nat)
    (lh rh : Nat) (hk : key.length < 256) (hh : hash.length = 32) :
    (encodeLinkFields hash sum key lh rh).map List.length
      = some (36 + key.length + (if sum.isSome then 8 else 0)) := by
  rw [encodeLinkFields_eq hash key sum lh rh hk]
  cases sum <;> simp [hh] <;> omega

/-- C4 (amended): for every encodable link the fixed overhead is 36 bytes
(1 key-length byte + 32-byte hash + 2 height bytes + 1 has-sum byte), so
`Link::encoding_length` is 36 plus the key length, plus the 8 sum bytes
when a sum is present, and equals the exact number of bytes produced by
`encode_into`. -/
theorem link_encoding_length_spec (h k : List Nat) (lh rh : Nat)
    (s : Option Nat) (t : Tree) (hh : h.length = 32) (hk : k.length < 256)
    (htk : t.key = k) :
    ((Link.reference h (lh, rh) k s).encoding_length
        = some (36 + k.length + (if s.isSome then 8 else 0))
      ∧ (Link.reference h (lh, rh) k s).encode_into.map List.length
        = some (36 + k.length + (if s.isSome then 8 else 0)))
    ∧ ((Link.uncommitted h (lh, rh) t s).encoding_length
        = some (36 + k.length + (if s.isSome then 8 else 0))
      ∧ (Link.uncommitted h (lh, rh) t s).encode_into.map List.length
        = some (36 + k.length + (if s.isSome then 8 else 0)))
    ∧ ((Link.loaded h (lh, rh) t s).encoding_length
        = some (36 + k.length + (if s.isSome then 8 else 0))
      ∧ (Link.loaded h (lh, rh) t s).encode_into.map List.length
        = some (36 + k.length + (if s.isSome then 8 else 0))) := by
  refine ⟨⟨?_, ?_⟩, ⟨?_, ?_⟩, ⟨?_, ?_⟩⟩ <;>
    simp only [Link.encoding_length, Link.encode_into, Link.key, htk, hk, if_true] <;>
    first
    | (cases s <;> simp <;> omega)
    | exact encodeLinkFields_length h k s lh rh hk hh

/-- Witness for C4 (amended) at the `encode_link_with_sum` test link:
key length 3 and a present sum give 36 + 3 + 8 = 47 bytes. -/
theorem link_encoding_length_spec_witness :
    (Link.reference (List.replicate 32 55) (123, 124) [1, 2, 3] (some 50)).encoding_length
        = some (36 + ([1, 2, 3] : List Nat).length + 8)
    ∧ (Link.reference (List.replicate 32 55) (123, 124) [1, 2, 3] (some 50)).encode_into.map
        List.length
        = some (36 + ([1, 2, 3] : List Nat).length + 8) := by
  have := (link_encoding_length_spec (List.replicate 32 55) [1, 2, 3] 123 124
    (some 50) ⟨[1, 2, 3], []⟩ (by decide) (by decide) rfl).1
  simpa using this

/-- Counterexample to C4 as stated: the source's own `encode_link` test
link (3-byte key, no sum) has encoding length 39, not 37 + 3 = 40; the
fixed overhead is 36 bytes, not 37. -/
theorem link_encoding_length_37_counterexample :
    (Link.reference (List.replicate 32 55) (123, 124) [1, 2, 3] none).encoding_length
        = some 39
    ∧ (39 : Nat) ≠ 37 + ([1, 2, 3] : List Nat).length := by
  decide

/-- C5: for every `Reference`, `Uncommitted`, or `Loaded` link (with the
key shorter than 256 bytes as the encoder's guard demands),
`encode_into` emits exactly, in order: one byte holding the key length,
the key bytes, the 32-byte hash field, one byte left child height, one
byte right child height, one has-sum byte (0 or 1), and, only when a sum
is present, the sum as 8 big-endian bytes. -/
theorem link_encode_into_layout (h k : List Nat) (lh rh : Nat)
    (s : Option Nat) (t : Tree) (hk : k.length < 256) (htk : t.key = k) :
    ((Link.reference h (lh, rh) k s).encode_into
        = some ((k.length :: k) ++ h ++ [lh, rh]
            ++ (match s with
                | none => [0]
                | some v => 1 :: beBytes 8 v)))
    ∧ ((Link.uncommitted h (lh, rh) t s).encode_into
        = some ((k.length :: k) ++ h ++ [lh, rh]
            ++ (match s with
                | none => [0]
                | some v => 1 :: beBytes 8 v)))
    ∧ ((Link.loaded h (lh, rh) t s).encode_into
        = some ((k.length :: k) ++ h ++ [lh, rh]
            ++ (match s with
                | none => [0]
                | some v => 1 :: beBytes 8 v))) := by
  refine ⟨?_, ?_, ?_⟩ <;> simp only [Link.encode_into, htk] <;>
    exact encodeLinkFields_eq h k s lh rh hk

/-- Witness for C5 at the `encode_link_with_sum` test link: the emitted
bytes are the test's literal expectation, sum 50 big-endian. -/
theorem link_encode_into_layout_witness :
    (Link.reference (List.replicate 32 55) (123, 124) [1, 2, 3] (some 50)).encode_into
      = some ((3 :: [1, 2, 3]) ++ List.replicate 32 55 ++ [123, 124]
          ++ (1 :: beBytes 8 50)) := by
  have := (link_encode_into_layout (List.replicate 32 55) [1, 2, 3] 123 124
    (some 50) ⟨[1, 2, 3], []⟩ (by decide) rfl).1
  simpa using this

/-- C8: partial-operation domains of `Link` -- `hash` succeeds exactly on
non-`Modified` links, `into_reference` succeeds exactly on `Reference`
and `Loaded` links, and both encoding entry points fail (panic) on
`Modified` links. -/
theorem link_partial_domains (l : Link) :
    (l.hash.isSome ↔ l.is_modified = false)
    ∧ (l.into_reference.isSome
        ↔ (l.is_modified = false ∧ l.is_uncommitted = false))
    ∧ (l.is_modified = true → l.encode_into = none ∧ l.encoding_length = none) := by
  cases l <;>
    simp [Link.hash, Link.into_reference, Link.is_modified, Link.is_uncommitted,
      Link.encode_into, Link.encoding_length]

/-- Witness for C8 at a concrete `Modified` link: both encoding entry
points fail on it. -/
theorem link_partial_domains_witness :
    (Link.modified 1 (1, 1) ⟨[0], [1]⟩).encode_into = none
    ∧ (Link.modified 1 (1, 1) ⟨[0], [1]⟩).encoding_length = none :=
  (link_partial_domains (Link.modified 1 (1, 1) ⟨[0], [1]⟩)).2.2 (by decide)

/-- C9: for every link whose key is 256 bytes or longer, `encode_into`
fails (the `debug_assert!` guard, a panic, modelled as `none`) rather
than producing an encoding. -/
theorem link_encode_long_key_fails (l : Link) (hk : 256 ≤ l.key.length) :
    l.encode_into = none := by
  cases l with
  | reference h ch k s =>
    obtain ⟨lh, rh⟩ := ch
    simp only [Link.key] at hk
    simp [Link.encode_into, encodeLinkFields, Nat.not_lt.mpr hk]
  | modified p ch t => rfl
  | uncommitted h ch t s =>
    obtain ⟨lh, rh⟩ := ch
    simp only [Link.key] at hk
    simp [Link.encode_into, encodeLinkFields, Nat.not_lt.mpr hk]
  | loaded h ch t s =>
    obtain ⟨lh, rh⟩ := ch
    simp only [Link.key] at hk
    simp [Link.encode_into, encodeLinkFields, Nat.not_lt.mpr hk]

/-- Witness for C9 at the `encode_link_long_key` test link shape: a
256-byte key makes `encode_into` fail. -/
theorem link_encode_long_key_fails_witness :
    256 ≤ (Link.reference [] (0, 0) (List.replicate 256 123) none).key.length
    ∧ (Link.reference [] (0, 0) (List.replicate 256 123) none).encode_into = none := by
  have hkey : (Link.reference [] (0, 0) (List.replicate 256 123) none).key
      = List.replicate 256 123 := rfl
  have hlen : 256 ≤ (Link.reference [] (0, 0) (List.replicate 256 123) none).key.length := by
    rw [hkey, List.length_replicate]
  exact ⟨hlen, link_encode_long_key_fails _ hlen⟩

/-! ## Multi-context batch commit (storage/src/rocksdb_storage/storage.rs)

The RocksDB backend is modelled as an association list from
(column family, key) to value.  Backend primitives that can fail in the
source (`db.get`, the final atomic `db.write`, and `transaction.put` /
`transaction.delete`) are driven by an explicit error oracle, so the
claims quantify over every possible failure pattern.  The savepoint /
rollback pair of the optimistic transaction is modelled in memory (the
rollback itself is taken to succeed). -/

/-- The four column families of the backend. -/
inductive CF where
  | main
  | aux
  | roots
  | meta
deriving DecidableEq

/-- `BatchOperation` of the storage crate (one variant per column family,
as in the source enum). -/
inductive BatchOperation where
  | put (key value : List Nat)
  | putAux (key value : List Nat)
  | putRoot (key value : List Nat)
  | putMeta (key value : List Nat)
  | delete (key : List Nat)
  | deleteAux (key : List Nat)
  | deleteRoot (key : List Nat)
  | deleteMeta (key : List Nat)
deriving DecidableEq

/-- Uniform view of a batch operation: the eight source arms differ only
in column family and put/delete kind. -/
inductive OpView where
  | putV (cf : CF) (key value : List Nat)
  | delV (cf : CF) (key : List Nat)
deriving DecidableEq

/-- The column-family classification of the eight `BatchOperation` arms. -/
def BatchOperation.view : BatchOperation → OpView
  | .put k v => .putV .main k v
  | .putAux k v => .putV .aux k v
  | .putRoot k v => .putV .roots k v
  | .putMeta k v => .putV .meta k v
  | .delete k => .delV .main k
  | .deleteAux k => .delV .aux k
  | .deleteRoot k => .delV .roots k
  | .deleteMeta k => .delV .meta k

/-- The backend state: one ordered map per column family, modelled as an
association list on (column family, key). -/
abbrev Db : Type := List ((CF × List Nat) × List Nat)

/-- `db.get` / `db.get_cf`: current value under a key, if any. -/
def Db.get (db : Db) (cf : CF) (key : List Nat) : Option (List Nat) :=
  alookup (cf, key) db

/-- Apply one write of a `WriteBatchWithTransaction` to the store. -/
def Db.applyOne (db : Db) : OpView → Db
  | .putV cf k v => ((cf, k), v) :: db.filter (fun e => decide (e.1 ≠ (cf, k)))
  | .delV cf k => db.filter (fun e => decide (e.1 ≠ (cf, k)))

/-- Atomic application of a whole write batch (`db.write(db_batch)`). -/
def Db.applyBatch (db : Db) : List BatchOperation → Db
  | [] => db
  | op :: rest => (db.applyOne op.view).applyBatch rest

/-- `OperationCost` of the costs crate (the fields this file touches). -/
structure OperationCost where
  seek_count : Nat := 0
  storage_written_bytes : Nat := 0
  storage_freed_bytes : Nat := 0
  storage_loaded_bytes : Nat := 0
  hash_node_calls : Nat := 0
deriving DecidableEq

/-- Error oracle for the fallible backend primitives. -/
structure DbErrors where
  getFails : CF → List Nat → Bool
  writeFails : Bool
  putFails : CF → List Nat → Bool
  deleteFails : CF → List Nat → Bool

/-- The oracle under which every backend primitive succeeds. -/
def DbErrors.noErrors : DbErrors :=
  ⟨fun _ _ => false, false, fun _ _ => false, fun _ _ => false⟩

/-- Result of a commit call: the `Result` value, the returned cost, and
the final backend-side state (the store for the non-transactional
variant, the transaction write buffer for the transactional one). -/
structure CommitResult (σ : Type) where
  result : Except Unit Unit
  cost : OperationCost
  state : σ

/-- Value length loaded by the pre-delete `db.get` (a missing value
counts as length 0, `unwrap_or(0)` in the source). -/
def deletedValueLen (db : Db) (cf : CF) (k : List Nat) : Nat :=
  ((db.get cf k).map List.length).getD 0

/-- Loop body of `commit_multi_context_batch`: accumulate the rocksdb
write batch and the pending byte counters; deletes seek the current
value first (`cost_return_on_error_no_add!` on a failing `db.get`
returns the cost accrued so far and drops the pending counters); after
the loop the single `db.write` is attempted and only on its success do
the pending counters join the cost and the batch hit the store. -/
def commitBatchAux (db : Db) (errs : DbErrors) :
    List BatchOperation → List BatchOperation → OperationCost → Nat → Nat →
      CommitResult Db
  | [], dbBatch, cost, pw, pf =>
    if errs.writeFails then ⟨.error (), cost, db⟩
    else
      ⟨.ok (),
        { cost with
          storage_written_bytes := cost.storage_written_bytes + pw,
          storage_freed_bytes := cost.storage_freed_bytes + pf },
        db.applyBatch dbBatch⟩
  | op :: rest, dbBatch, cost, pw, pf =>
    match op.view with
    | .putV _ k v =>
      commitBatchAux db errs rest (dbBatch ++ [op]) cost
        (pw + (k.length + v.length)) pf
    | .delV cf k =>
      let cost1 := { cost with seek_count := cost.seek_count + 1 }
      if errs.getFails cf k then ⟨.error (), cost1, db⟩
      else
        let vlen := deletedValueLen db cf k
        let cost2 :=
          { cost1 with storage_loaded_bytes := cost1.storage_loaded_bytes + vlen }
        commitBatchAux db errs rest (dbBatch ++ [op]) cost2 pw
          (pf + (k.length + vlen))

/-- `commit_multi_context_batch`. -/
def commit_multi_context_batch (db : Db) (errs : DbErrors)
    (batch : List BatchOperation) : CommitResult Db :=
  commitBatchAux db errs batch [] {} 0 0

/-- The transaction write buffer of the optimistic transaction. -/
abbrev Tx : Type := List OpView

/-- Loop body of `commit_multi_context_batch_with_transaction`
(`try_for_each` over the batch): puts and deletes go through the
transaction and may fail; on the first failure the transaction is rolled
back to the savepoint taken at the start and the error is returned with
the cost accrued so far, the pending counters discarded. -/
def commitBatchTxAux (db : Db) (errs : DbErrors) :
    List BatchOperation → Tx → Tx → OperationCost → Nat → Nat → CommitResult Tx
  | [], txs, _sp, cost, pw, pf =>
    ⟨.ok (),
      { cost with
        storage_written_bytes := cost.storage_written_bytes + pw,
        storage_freed_bytes := cost.storage_freed_bytes + pf },
      txs⟩
  | op :: rest, txs, sp, cost, pw, pf =>
    match op.view with
    | .putV cf k v =>
      let pw1 := pw + (k.length + v.length)
      if errs.putFails cf k then ⟨.error (), cost, sp⟩
      else commitBatchTxAux db errs rest (txs ++ [.putV cf k v]) sp cost pw1 pf
    | .delV cf k =>
      let cost1 := { cost with seek_count := cost.seek_count + 1 }
      if errs.getFails cf k then ⟨.error (), cost1, sp⟩
      else
        let vlen := deletedValueLen db cf k
        let cost2 :=
          { cost1 with storage_loaded_bytes := cost1.storage_loaded_bytes + vlen }
        let pf1 := pf + (k.length + vlen)
        if errs.deleteFails cf k then ⟨.error (), cost2, sp⟩
        else commitBatchTxAux db errs rest (txs ++ [.delV cf k]) sp cost2 pw pf1

/-- `commit_multi_context_batch_with_transaction`: `set_savepoint()` at
entry, then the loop; on error, rollback to the savepoint. -/
def commit_multi_context_batch_with_transaction (db : Db) (errs : DbErrors)
    (batch : List BatchOperation) (tx : Tx) : CommitResult Tx :=
  commitBatchTxAux db errs batch tx tx {} 0 0

/-- Specification-side sum: bytes a batch writes
(`len(key) + len(value)` per put of any column family). -/
def writtenOf : List BatchOperation → Nat
  | [] => 0
  | op :: rest =>
    (match op.view with
      | .putV _ k v => k.length + v.length
      | .delV _ _ => 0) + writtenOf rest

/-- Specification-side sum: bytes a batch frees against store `db`
(`len(key) + len(current value)` per delete, missing value = 0). -/
def freedOf (db : Db) : List BatchOperation → Nat
  | [] => 0
  | op :: rest =>
    (match op.view with
      | .putV _ _ _ => 0
      | .delV cf k => k.length + deletedValueLen db cf k) + freedOf db rest

/-- Specification-side sum: bytes a batch loads against store `db`
(the current value length per delete). -/
def loadedOf (db : Db) : List BatchOperation → Nat
  | [] => 0
  | op :: rest =>
    (match op.view with
      | .putV _ _ _ => 0
      | .delV cf k => deletedValueLen db cf k) + loadedOf db rest

/-- Specification-side count of delete operations (one seek each). -/
def numDeletes : List BatchOperation → Nat
  | [] => 0
  | op :: rest =>
    (match op.view with
      | .putV _ _ _ => 0
      | .delV _ _ => 1) + numDeletes rest

theorem commitBatchAux_error (db : Db) (errs : DbErrors) :
    ∀ (ops dbBatch : List BatchOperation) (cost : OperationCost) (pw pf : Nat),
      (commitBatchAux db errs ops dbBatch cost pw pf).result = .error () →
        (commitBatchAux db errs ops dbBatch cost pw pf).state = db
        ∧ (commitBatchAux db errs ops dbBatch cost pw pf).cost.storage_written_bytes
            = cost.storage_written_bytes
        ∧ (commitBatchAux db errs ops dbBatch cost pw pf).cost.storage_freed_bytes
            = cost.storage_freed_bytes
        ∧ ∃ i j, j ≤ i ∧ i ≤ ops.length
            ∧ (commitBatchAux db errs ops dbBatch cost pw pf).cost.seek_count
                = cost.seek_count + numDeletes (ops.take i)
            ∧ (commitBatchAux db errs ops dbBatch cost pw pf).cost.storage_loaded_bytes
                = cost.storage_loaded_bytes + loadedOf db (ops.take j)
  | [], dbBatch, cost, pw, pf, hres => by
    cases hw : errs.writeFails with
    | true =>
      refine ⟨?_, ?_, ?_, 0, 0, Nat.le_refl 0, Nat.zero_le _, ?_, ?_⟩ <;>
        simp [commitBatchAux, hw, numDeletes, loadedOf]
    | false => simp [commitBatchAux, hw] at hres
  | op :: rest, dbBatch, cost, pw, pf, hres => by
    cases hv : op.view with
    | putV cf k v =>
      simp only [commitBatchAux, hv] at hres ⊢
      obtain ⟨hst, hwr, hfr, i, j, hji, hlen, hseek, hload⟩ :=
        commitBatchAux_error db errs rest (dbBatch ++ [op]) cost
          (pw + (k.length + v.length)) pf hres
      refine ⟨hst, hwr, hfr, i + 1, j + 1, by omega, by simp; omega, ?_, ?_⟩
      · simpa [numDeletes, hv] using hseek
      · simpa [loadedOf, hv] using hload
    | delV cf k =>
      simp only [commitBatchAux, hv] at hres ⊢
      cases hg : errs.getFails cf k with
      | true =>
        refine ⟨?_, ?_, ?_, 1, 0, Nat.zero_le 1, by simp, ?_, ?_⟩ <;>
          simp [hg, numDeletes, loadedOf, hv]
      | false =>
        simp only [hg, Bool.false_eq_true, if_false] at hres ⊢
        obtain ⟨hst, hwr, hfr, i, j, hji, hlen, hseek, hload⟩ :=
          commitBatchAux_error db errs rest (dbBatch ++ [op])
            { cost with
              seek_count := cost.seek_count + 1,
              storage_loaded_bytes :=
                cost.storage_loaded_bytes + deletedValueLen db cf k }
            pw (pf + (k.length + deletedValueLen db cf k)) hres
        refine ⟨hst, hwr, hfr, i + 1, j + 1, by omega, by simp; omega, ?_, ?_⟩
        · simp only [List.take_succ_cons, numDeletes, hv] at hseek ⊢
          omega
        · simp only [List.take_succ_cons, loadedOf, hv] at hload ⊢
          omega

theorem commitBatchAux_ok (db : Db) (errs : DbErrors) :
    ∀ (ops dbBatch : List BatchOperation) (cost : OperationCost) (pw pf : Nat),
      (commitBatchAux db errs ops dbBatch cost pw pf).result = .ok () →
        (commitBatchAux db errs ops dbBatch cost pw pf).cost.storage_written_bytes
            = cost.storage_written_bytes + pw + writtenOf ops
        ∧ (commitBatchAux db errs ops dbBatch cost pw pf).cost.storage_freed_bytes
            = cost.storage_freed_bytes + pf + freedOf db ops
        ∧ (commitBatchAux db errs ops dbBatch cost pw pf).cost.seek_count
            = cost.seek_count + numDeletes ops
        ∧ (commitBatchAux db errs ops dbBatch cost pw pf).cost.storage_loaded_bytes
            = cost.storage_loaded_bytes + loadedOf db ops
        ∧ (commitBatchAux db errs ops dbBatch cost pw pf).cost.hash_node_calls
            = cost.hash_node_calls
  | [], dbBatch, cost, pw, pf, hres => by
    cases hw : errs.writeFails with
    | true => simp [commitBatchAux, hw] at hres
    | false => simp [commitBatchAux, hw, writtenOf, freedOf, numDeletes, loadedOf]
  | op :: rest, dbBatch, cost, pw, pf, hres => by
    cases hv : op.view with
    | putV cf k v =>
      simp only [commitBatchAux, hv] at hres ⊢
      obtain ⟨hwr, hfr, hseek, hload, hhash⟩ :=
        commitBatchAux_ok db errs rest (dbBatch ++ [op]) cost
          (pw + (k.length + v.length)) pf hres
      refine ⟨?_, ?_, ?_, ?_, hhash⟩ <;>
        simp [writtenOf, freedOf, numDeletes, loadedOf, hv, hwr, hfr, hseek, hload] <;>
        omega
    | delV cf k =>
      simp only [commitBatchAux, hv] at hres ⊢
      cases hg : errs.getFails cf k with
      | true => simp [hg] at hres
      | false =>
        simp only [hg, Bool.false_eq_true, if_false] at hres ⊢
        obtain ⟨hwr, hfr, hseek, hload, hhash⟩ :=
          commitBatchAux_ok db errs rest (dbBatch ++ [op])
            { cost with
              seek_count := cost.seek_count + 1,
              storage_loaded_bytes :=
                cost.storage_loaded_bytes + deletedValueLen db cf k }
            pw (pf + (k.length + deletedValueLen db cf k)) hres
        refine ⟨?_, ?_, ?_, ?_, by simpa using hhash⟩ <;>
          simp only [writtenOf, freedOf, numDeletes, loadedOf, hv] at hwr hfr hseek hload ⊢ <;>
          omega

theorem commitBatchAux_noErrors_ok (db : Db) :
    ∀ (ops dbBatch : List BatchOperation) (cost : OperationCost) (pw pf : Nat),
      (commitBatchAux db .noErrors ops dbBatch cost pw pf).result = .ok ()
  | [], dbBatch, cost, pw, pf => by
    simp [commitBatchAux, DbErrors.noErrors]
  | op :: rest, dbBatch, cost, pw, pf => by
    cases hv : op.view with
    | putV cf k v =>
      simp only [commitBatchAux, hv]
      exact commitBatchAux_noErrors_ok db rest _ _ _ _
    | delV cf k =>
      simp only [commitBatchAux, hv, DbErrors.noErrors, Bool.false_eq_true, if_false]
      exact commitBatchAux_noErrors_ok db rest _ _ _ _

theorem commitBatchTxAux_error (db : Db) (errs : DbErrors) :
    ∀ (ops : List BatchOperation) (txs sp : Tx) (cost : OperationCost) (pw pf : Nat),
      (commitBatchTxAux db errs ops txs sp cost pw pf).result = .error () →
        (commitBatchTxAux db errs ops txs sp cost pw pf).state = sp
        ∧ (commitBatchTxAux db errs ops txs sp cost pw pf).cost.storage_written_bytes
            = cost.storage_written_bytes
        ∧ (commitBatchTxAux db errs ops txs sp cost pw pf).cost.storage_freed_bytes
            = cost.storage_freed_bytes
        ∧ ∃ i j, j ≤ i ∧ i ≤ ops.length
            ∧ (commitBatchTxAux db errs ops txs sp cost pw pf).cost.seek_count
                = cost.seek_count + numDeletes (ops.take i)
            ∧ (commitBatchTxAux db errs ops txs sp cost pw pf).cost.storage_loaded_bytes
                = cost.storage_loaded_bytes + loadedOf db (ops.take j)
  | [], txs, sp, cost, pw, pf, hres => by
    simp [commitBatchTxAux] at hres
  | op :: rest, txs, sp, cost, pw, pf, hres => by
    cases hv : op.view with
    | putV cf k v =>
      simp only [commitBatchTxAux, hv] at hres ⊢
      cases hp : errs.putFails cf k with
      | true =>
        refine ⟨?_, ?_, ?_, 0, 0, Nat.le_refl 0, Nat.zero_le _, ?_, ?_⟩ <;>
          simp [hp, numDeletes, loadedOf]
      | false =>
        simp only [hp, Bool.false_eq_true, if_false] at hres ⊢
        obtain ⟨hst, hwr, hfr, i, j, hji, hlen, hseek, hload⟩ :=
          commitBatchTxAux_error db errs rest (txs ++ [.putV cf k v]) sp cost
            (pw + (k.length + v.length)) pf hres
        refine ⟨hst, hwr, hfr, i + 1, j + 1, by omega, by simp; omega, ?_, ?_⟩
        · simpa [numDeletes, hv] using hseek
        · simpa [loadedOf, hv] using hload
    | delV cf k =>
      simp only [commitBatchTxAux, hv] at hres ⊢
      cases hg : errs.getFails cf k with
      | true =>
        refine ⟨?_, ?_, ?_, 1, 0, Nat.zero_le 1, by simp, ?_, ?_⟩ <;>
          simp [hg, numDeletes, loadedOf, hv]
      | false =>
        simp only [hg, Bool.false_eq_true, if_false] at hres ⊢
        cases hd : errs.deleteFails cf k with
        | true =>
          refine ⟨?_, ?_, ?_, 1, 1, Nat.le_refl 1, by simp, ?_, ?_⟩ <;>
            simp [hg, hd, numDeletes, loadedOf, hv]
        | false =>
          simp only [hd, Bool.false_eq_true, if_false] at hres ⊢
          obtain ⟨hst, hwr, hfr, i, j, hji, hlen, hseek, hload⟩ :=
            commitBatchTxAux_error db errs rest (txs ++ [.delV cf k]) sp
              { cost with
                seek_count := cost.seek_count + 1,
                storage_loaded_bytes :=
                  cost.storage_loaded_bytes + deletedValueLen db cf k }
              pw (pf + (k.length + deletedValueLen db cf k)) hres
          refine ⟨hst, hwr, hfr, i + 1, j + 1, by omega, by simp; omega, ?_, ?_⟩
          · simp only [List.take_succ_cons, numDeletes, hv] at hseek ⊢
            omega
          · simp only [List.take_succ_cons, loadedOf, hv] at hload ⊢
            omega

theorem commitBatchTxAux_ok (db : Db) (errs : DbErrors) :
    ∀ (ops : List BatchOperation) (txs sp : Tx) (cost : OperationCost) (pw pf : Nat),
      (commitBatchTxAux db errs ops txs sp cost pw pf).result = .ok () →
        (commitBatchTxAux db errs ops txs sp cost pw pf).cost.storage_written_bytes
            = cost.storage_written_bytes + pw + writtenOf ops
        ∧ (commitBatchTxAux db errs ops txs sp cost pw pf).cost.storage_freed_bytes
            = cost.storage_freed_bytes + pf + freedOf db ops
        ∧ (commitBatchTxAux db errs ops txs sp cost pw pf).cost.seek_count
            = cost.seek_count + numDeletes ops
        ∧ (commitBatchTxAux db errs ops txs sp cost pw pf).cost.storage_loaded_bytes
            = cost.storage_loaded_bytes + loadedOf db ops
        ∧ (commitBatchTxAux db errs ops txs sp cost pw pf).cost.hash_node_calls
            = cost.hash_node_calls
  | [], txs, sp, cost, pw, pf, _ => by
    simp [commitBatchTxAux, writtenOf, freedOf, numDeletes, loadedOf]
  | op :: rest, txs, sp, cost, pw, pf, hres => by
    cases hv : op.view with
    | putV cf k v =>
      simp only [commitBatchTxAux, hv] at hres ⊢
      cases hp : errs.putFails cf k with
      | true => simp [hp] at hres
      | false =>
        simp only [hp, Bool.false_eq_true, if_false] at hres ⊢
        obtain ⟨hwr, hfr, hseek, hload, hhash⟩ :=
          commitBatchTxAux_ok db errs rest (txs ++ [.putV cf k v]) sp cost
            (pw + (k.length + v.length)) pf hres
        refine ⟨?_, ?_, ?_, ?_, hhash⟩ <;>
          simp [writtenOf, freedOf, numDeletes, loadedOf, hv, hwr, hfr, hseek, hload] <;>
          omega
    | delV cf k =>
      simp only [commitBatchTxAux, hv] at hres ⊢
      cases hg : errs.getFails cf k with
      | true => simp [hg] at hres
      | false =>
        simp only [hg, Bool.false_eq_true, if_false] at hres ⊢
        cases hd : errs.deleteFails cf k with
        | true => simp [hd] at hres
        | false =>
          simp only [hd, Bool.false_eq_true, if_false] at hres ⊢
          obtain ⟨hwr, hfr, hseek, hload, hhash⟩ :=
            commitBatchTxAux_ok db errs rest (txs ++ [.delV cf k]) sp
              { cost with
                seek_count := cost.seek_count + 1,
                storage_loaded_bytes :=
                  cost.storage_loaded_bytes + deletedValueLen db cf k }
              pw (pf + (k.length + deletedValueLen db cf k)) hres
          refine ⟨?_, ?_, ?_, ?_, by simpa using hhash⟩ <;>
            simp only [writtenOf, freedOf, numDeletes, loadedOf, hv] at hwr hfr hseek hload ⊢ <;>
            omega

/-! ## Claim theorems for the multi-context batch commit -/

/-- C1: atomicity of the multi-context batch commit.  For both variants,
the pending written/freed byte counters join the returned cost only when
every backend operation succeeds (in which case they equal the put and
delete byte sums of the batch); on any error, the cost carries zero
written and freed bytes while keeping the seek count and loaded bytes of
the prefix processed so far, the transactional variant rolls the
transaction back to the savepoint taken at the start of the batch, and
the non-transactional variant leaves the store untouched. -/
theorem commit_multi_context_batch_atomicity (db : Db) (errs : DbErrors)
    (batch : List BatchOperation) (tx : Tx) :
    ((commit_multi_context_batch_with_transaction db errs batch tx).result = .error () →
        (commit_multi_context_batch_with_transaction db errs batch tx).state = tx
        ∧ (commit_multi_context_batch_with_transaction db errs batch tx).cost.storage_written_bytes = 0
        ∧ (commit_multi_context_batch_with_transaction db errs batch tx).cost.storage_freed_bytes = 0
        ∧ ∃ i j, j ≤ i ∧ i ≤ batch.length
            ∧ (commit_multi_context_batch_with_transaction db errs batch tx).cost.seek_count
                = numDeletes (batch.take i)
            ∧ (commit_multi_context_batch_with_transaction db errs batch tx).cost.storage_loaded_bytes
                = loadedOf db (batch.take j))
    ∧ ((commit_multi_context_batch_with_transaction db errs batch tx).result = .ok () →
        (commit_multi_context_batch_with_transaction db errs batch tx).cost.storage_written_bytes
            = writtenOf batch
        ∧ (commit_multi_context_batch_with_transaction db errs batch tx).cost.storage_freed_bytes
            = freedOf db batch)
    ∧ ((commit_multi_context_batch db errs batch).result = .error () →
        (commit_multi_context_batch db errs batch).state = db
        ∧ (commit_multi_context_batch db errs batch).cost.storage_written_bytes = 0
        ∧ (commit_multi_context_batch db errs batch).cost.storage_freed_bytes = 0
        ∧ ∃ i j, j ≤ i ∧ i ≤ batch.length
            ∧ (commit_multi_context_batch db errs batch).cost.seek_count
                = numDeletes (batch.take i)
            ∧ (commit_multi_context_batch db errs batch).cost.storage_loaded_bytes
                = loadedOf db (batch.take j))
    ∧ ((commit_multi_context_batch db errs batch).result = .ok () →
        (commit_multi_context_batch db errs batch).cost.storage_written_bytes
            = writtenOf batch
        ∧ (commit_multi_context_batch db errs batch).cost.storage_freed_bytes
            = freedOf db batch) := by
  refine ⟨fun hres => ?_, fun hres => ?_, fun hres => ?_, fun hres => ?_⟩
  · obtain ⟨hst, hwr, hfr, i, j, hji, hlen, hseek, hload⟩ :=
      commitBatchTxAux_error db errs batch tx tx {} 0 0 hres
    exact ⟨hst, by simpa using hwr, by simpa using hfr, i, j, hji, hlen,
      by simpa using hseek, by simpa using hload⟩
  · obtain ⟨hwr, hfr, _, _, _⟩ := commitBatchTxAux_ok db errs batch tx tx {} 0 0 hres
    exact ⟨by simpa using hwr, by simpa using hfr⟩
  · obtain ⟨hst, hwr, hfr, i, j, hji, hlen, hseek, hload⟩ :=
      commitBatchAux_error db errs batch [] {} 0 0 hres
    exact ⟨hst, by simpa using hwr, by simpa using hfr, i, j, hji, hlen,
      by simpa using hseek, by simpa using hload⟩
  · obtain ⟨hwr, hfr, _, _, _⟩ := commitBatchAux_ok db errs batch [] {} 0 0 hres
    exact ⟨by simpa using hwr, by simpa using hfr⟩

/-- Witness for C1: a two-operation batch whose delete seeks a key on
which `db.get` fails.  The transactional commit errors after one seek,
rolls back to the pre-batch buffer, and discards the pending counters of
the already-processed put. -/
theorem commit_multi_context_batch_atomicity_witness :
    (commit_multi_context_batch_with_transaction [((CF.main, [1]), [5, 6])]
        { getFails := fun _ _ => true, writeFails := false,
          putFails := fun _ _ => false, deleteFails := fun _ _ => false }
        [.put [2] [3, 4], .delete [1]] [.putV .main [9] [9]]).state
      = [.putV .main [9] [9]]
    ∧ (commit_multi_context_batch_with_transaction [((CF.main, [1]), [5, 6])]
        { getFails := fun _ _ => true, writeFails := false,
          putFails := fun _ _ => false, deleteFails := fun _ _ => false }
        [.put [2] [3, 4], .delete [1]] [.putV .main [9] [9]]).cost.storage_written_bytes = 0
    ∧ (commit_multi_context_batch_with_transaction [((CF.main, [1]), [5, 6])]
        { getFails := fun _ _ => true, writeFails := false,
          putFails := fun _ _ => false, deleteFails := fun _ _ => false }
        [.put [2] [3, 4], .delete [1]] [.putV .main [9] [9]]).cost.storage_freed_bytes = 0
    ∧ ∃ i j, j ≤ i ∧ i ≤ ([.put [2] [3, 4], .delete [1]] : List BatchOperation).length
        ∧ (commit_multi_context_batch_with_transaction [((CF.main, [1]), [5, 6])]
            { getFails := fun _ _ => true, writeFails := false,
              putFails := fun _ _ => false, deleteFails := fun _ _ => false }
            [.put [2] [3, 4], .delete [1]] [.putV .main [9] [9]]).cost.seek_count
          = numDeletes (([.put [2] [3, 4], .delete [1]] : List BatchOperation).take i)
        ∧ (commit_multi_context_batch_with_transaction [((CF.main, [1]), [5, 6])]
            { getFails := fun _ _ => true, writeFails := false,
              putFails := fun _ _ => false, deleteFails := fun _ _ => false }
            [.put [2] [3, 4], .delete [1]] [.putV .main [9] [9]]).cost.storage_loaded_bytes
          = loadedOf [((CF.main, [1]), [5, 6])]
              (([.put [2] [3, 4], .delete [1]] : List BatchOperation).take j) :=
  (commit_multi_context_batch_atomicity [((CF.main, [1]), [5, 6])]
    { getFails := fun _ _ => true, writeFails := false,
      putFails := fun _ _ => false, deleteFails := fun _ _ => false }
    [.put [2] [3, 4], .delete [1]] [.putV .main [9] [9]]).1 rfl

/-- C6: byte accounting of a committed multi-context batch against an
error-free backend: each put (to any column family) adds
`len(key) + len(value)` to the written bytes; each delete performs
exactly one seek, loads the length of the currently stored value (0 when
missing), and frees `len(key)` plus that length; nothing else is
counted. -/
theorem commit_multi_context_batch_byte_accounting (db : Db)
    (batch : List BatchOperation) :
    (commit_multi_context_batch db .noErrors batch).result = .ok ()
    ∧ (commit_multi_context_batch db .noErrors batch).cost.storage_written_bytes
        = writtenOf batch
    ∧ (commit_multi_context_batch db .noErrors batch).cost.storage_freed_bytes
        = freedOf db batch
    ∧ (commit_multi_context_batch db .noErrors batch).cost.seek_count
        = numDeletes batch
    ∧ (commit_multi_context_batch db .noErrors batch).cost.storage_loaded_bytes
        = loadedOf db batch
    ∧ (commit_multi_context_batch db .noErrors batch).cost.hash_node_calls = 0 := by
  have hok := commitBatchAux_noErrors_ok db batch [] {} 0 0
  obtain ⟨hwr, hfr, hseek, hload, hhash⟩ :=
    commitBatchAux_ok db .noErrors batch [] {} 0 0 hok
  exact ⟨hok, by simpa using hwr, by simpa using hfr, by simpa using hseek,
    by simpa using hload, by simpa using hhash⟩

/-! ## `GroveDb::insert` / `insert_if_not_exists` (grovedb/src/operations/insert.rs)

The insert operations are embedded over an abstract Merk type `M` and
root-tree type `R`.  Operations whose code lives outside the sources
under verification (`compress_subtree_key`, `Merk::open`, `root_hash`,
`Element::insert`, `propagate_changes`, `store_subtrees_keys_data`,
`GroveDb::get`) are supplied by a `GroveEnv` of arbitrary functions, so
every theorem below holds for every behaviour of those collaborators.
Mutating methods take the state and return it possibly changed even on
error, mirroring `&mut self` receivers. -/

/-- Modelled from the spec: the element stored under a key -- an opaque
`Item`, a `Reference` indirection, or a `Tree` carrying the subtree root
hash, as constructed and matched by operations/insert.rs. -/
inductive Element where
  | item (value : List Nat)
  | reference (path : List (List Nat))
  | tree (hash : List Nat)
deriving DecidableEq

/-- `true` exactly on the `Element::Tree(..)` pattern of the source's
`match element`. -/
def Element.isTree : Element → Bool
  | .tree _ => true
  | _ => false

/-- The `InvalidPath` message literals of operations/insert.rs:
`only subtrees are allowed as root tree` + (apostrophe) + `s leafs`, and
`no subtree found under that path`. -/
inductive InvalidPathMsg where
  | onlySubtreesAllowedAsRootTreeLeafs
  | noSubtreeFoundUnderThatPath
deriving DecidableEq

/-- The error kinds `GroveDb::insert` can surface. -/
inductive GroveError where
  | invalidPath (msg : InvalidPathMsg)
  | corruptedData
  | internalPanic
  | other (code : Nat)
deriving DecidableEq

/-- Rust `Result::is_ok`. -/
def isOkE {ε α : Type} : Except ε α → Bool
  | .ok _ => true
  | .error _ => false

/-- The in-memory `GroveDb` fields touched by insert: the `subtrees` map
(prefix to open Merk), the `root_leaf_keys` index, and the root tree. -/
structure GroveDbState (M R : Type) where
  subtrees : List (List Nat × M)
  rootLeafKeys : List (List Nat × Nat)
  rootTree : R
deriving DecidableEq

/-- Collaborator operations of insert.rs whose definitions live outside
the sources under verification; each is an arbitrary function, and the
claims are proved for every choice of them.  `merkOpen` folds in
`PrefixedRocksDbStorage::new` and `Merk::open` together with the
source's mapping of open errors to `CorruptedData`. -/
structure GroveEnv (M R : Type) where
  compressSubtreeKey : List (List Nat) → Option (List Nat) → List Nat
  merkOpen : List Nat → Except GroveError M
  merkRootHash : M → List Nat
  elementInsert : Element → M → List Nat → Except GroveError Unit × M
  propagateChanges : GroveDbState M R → List (List Nat) →
    Except GroveError Unit × GroveDbState M R
  storeSubtreesKeysData : GroveDbState M R →
    Except GroveError Unit × GroveDbState M R
  leavesLen : R → Nat
  getElement : GroveDbState M R → List (List Nat) → List Nat →
    Except GroveError Element

/-- `create_merk_with_prefix`: build the prefix for `key` under `path`
and open a Merk at it. -/
def createMerkWithPrefix {M R : Type} (env : GroveEnv M R)
    (path : List (List Nat)) (key : List Nat) :
    Except GroveError (List Nat × M) :=
  let pfx := env.compressSubtreeKey path (some key)
  match env.merkOpen pfx with
  | .ok m => .ok (pfx, m)
  | .error e => .error e

/-- `GroveDb::add_root_leaf`: open a Merk for `key` at the empty path,
register it in `subtrees`, record the key in the root-leaf index when it
is new, then propagate changes for path `[key]`. -/
def GroveDb.add_root_leaf {M R : Type} (env : GroveEnv M R)
    (st : GroveDbState M R) (key : List Nat) :
    Except GroveError Unit × GroveDbState M R :=
  match createMerkWithPrefix env [] key with
  | .error e => (.error e, st)
  | .ok (pfx, merk) =>
    let st1 := { st with subtrees := ainsert pfx merk st.subtrees }
    let st2 :=
      if (alookup pfx st1.rootLeafKeys).isNone then
        { st1 with
          rootLeafKeys := ainsert pfx (env.leavesLen st1.rootTree) st1.rootLeafKeys }
      else st1
    env.propagateChanges st2 [key]

/-- `GroveDb::add_non_root_subtree`: require the parent subtree to
exist, open the child Merk, store a `Tree(root_hash)` element in the
parent under `key`, and propagate. -/
def GroveDb.add_non_root_subtree {M R : Type} (env : GroveEnv M R)
    (st : GroveDbState M R) (path : List (List Nat)) (key : List Nat) :
    Except GroveError Unit × GroveDbState M R :=
  let cpath := env.compressSubtreeKey path none
  match alookup cpath st.subtrees with
  | none => (.error (.invalidPath .noSubtreeFoundUnderThatPath), st)
  | some _ =>
    match createMerkWithPrefix env path key with
    | .error e => (.error e, st)
    | .ok (pfx, subtreeMerk) =>
      let element := Element.tree (env.merkRootHash subtreeMerk)
      let st1 := { st with subtrees := ainsert pfx subtreeMerk st.subtrees }
      match alookup cpath st1.subtrees with
      | none => (.error .internalPanic, st1)
      | some parentMerk =>
        let (r, parentMerk1) := env.elementInsert element parentMerk key
        let st2 := { st1 with subtrees := ainsert cpath parentMerk1 st1.subtrees }
        match r with
        | .error e => (.error e, st2)
        | .ok () => env.propagateChanges st2 path

/-- `GroveDb::insert`: tree elements go through the root-leaf or
non-root subtree flow followed by `store_subtrees_keys_data`; any other
element is rejected at the root with `InvalidPath` and otherwise written
into the parent Merk followed by propagation. -/
def GroveDb.insert {M R : Type} (env : GroveEnv M R) (st : GroveDbState M R)
    (path : List (List Nat)) (key : List Nat) (element : Element) :
    Except GroveError Unit × GroveDbState M R :=
  match element with
  | .tree _ =>
    let (r1, st1) :=
      if path.isEmpty then GroveDb.add_root_leaf env st key
      else GroveDb.add_non_root_subtree env st path key
    match r1 with
    | .error e => (.error e, st1)
    | .ok () => env.storeSubtreesKeysData st1
  | _ =>
    if path.isEmpty then
      (.error (.invalidPath .onlySubtreesAllowedAsRootTreeLeafs), st)
    else
      let cpath := env.compressSubtreeKey path none
      match alookup cpath st.subtrees with
      | none => (.error (.invalidPath .noSubtreeFoundUnderThatPath), st)
      | some merk =>
        let (r, merk1) := env.elementInsert element merk key
        let st1 := { st with subtrees := ainsert cpath merk1 st.subtrees }
        match r with
        | .error e => (.error e, st1)
        | .ok () => env.propagateChanges st1 path

/-- `GroveDb::insert_if_not_exists`: return `Ok(false)` untouched when
`get` succeeds, otherwise run `insert` and map its success to `true`. -/
def GroveDb.insert_if_not_exists {M R : Type} (env : GroveEnv M R)
    (st : GroveDbState M R) (path : List (List Nat)) (key : List Nat)
    (element : Element) : Except GroveError Bool × GroveDbState M R :=
  if isOkE (env.getElement st path key) then (.ok false, st)
  else
    let (r, st1) := GroveDb.insert env st path key element
    (match r with
      | .ok _ => .ok true
      | .error e => .error e, st1)

/-! ## Claim theorems for the GroveDb insert operations -/

/-- C7: inserting a non-tree element at the empty path fails with
`InvalidPath` (the source's `only subtrees are allowed as root tree
leafs` message) and returns the state unchanged -- no Merk is touched
and no propagation happens, for every behaviour of the collaborator
operations. -/
theorem grovedb_insert_nontree_root {M R : Type} (env : GroveEnv M R)
    (st : GroveDbState M R) (key : List Nat) (element : Element)
    (hne : element.isTree = false) :
    GroveDb.insert env st [] key element
      = (.error (.invalidPath .onlySubtreesAllowedAsRootTreeLeafs), st) := by
  cases element with
  | item v => simp [GroveDb.insert]
  | reference p => simp [GroveDb.insert]
  | tree h => simp [Element.isTree] at hne

/-- A concrete environment over unit Merk and root-tree carriers, used
by the witnesses of the insert claims. -/
def unitEnv : GroveEnv Unit Unit :=
  { compressSubtreeKey := fun _ _ => [],
    merkOpen := fun _ => .ok (),
    merkRootHash := fun _ => [],
    elementInsert := fun _ m _ => (.ok (), m),
    propagateChanges := fun s _ => (.ok (), s),
    storeSubtreesKeysData := fun s => (.ok (), s),
    leavesLen := fun _ => 0,
    getElement := fun _ _ _ => .error (.other 0) }

/-- Witness for C7 with trivial Merk and root-tree carriers and a
concrete environment and state. -/
theorem grovedb_insert_nontree_root_witness :
    GroveDb.insert unitEnv ⟨[([], ())], [], ()⟩ [] [1] (.item [2])
      = (.error (.invalidPath .onlySubtreesAllowedAsRootTreeLeafs),
          ⟨[([], ())], [], ()⟩) :=
  grovedb_insert_nontree_root unitEnv ⟨[([], ())], [], ()⟩ [1] (.item [2]) rfl

/-- C10: `insert_if_not_exists` returns `Ok(false)` and leaves the state
exactly as before whenever `get` succeeds on the target, and otherwise
behaves exactly like `insert` -- same final state, `Ok(true)` on insert
success and the insert error otherwise. -/
theorem grovedb_insert_if_not_exists_spec {M R : Type} (env : GroveEnv M R)
    (st : GroveDbState M R) (path : List (List Nat)) (key : List Nat)
    (element : Element) :
    (isOkE (env.getElement st path key) = true →
        GroveDb.insert_if_not_exists env st path key element = (.ok false, st))
    ∧ (isOkE (env.getElement st path key) = false →
        GroveDb.insert_if_not_exists env st path key element
          = ((match (GroveDb.insert env st path key element).1 with
              | .ok _ => .ok true
              | .error e => .error e),
             (GroveDb.insert env st path key element).2)) := by
  constructor
  · intro hok
    simp [GroveDb.insert_if_not_exists, hok]
  · intro hko
    simp only [GroveDb.insert_if_not_exists, hko, Bool.false_eq_true, if_false]

/-- Witness for C10: an environment whose `get` always fails, on which
`insert_if_not_exists` of a non-tree element at the root reproduces the
`insert` outcome. -/
theorem grovedb_insert_if_not_exists_spec_witness :
    GroveDb.insert_if_not_exists unitEnv ⟨[], [], ()⟩ [] [3] (.item [4])
      = ((match (GroveDb.insert unitEnv ⟨[], [], ()⟩ [] [3] (.item [4])).1 with
          | .ok _ => .ok true
          | .error e => .error e),
         (GroveDb.insert unitEnv ⟨[], [], ()⟩ [] [3] (.item [4])).2) :=
  (grovedb_insert_if_not_exists_spec unitEnv ⟨[], [], ()⟩ [] [3] (.item [4])).2 rfl

end GroveSpec
